import Mathlib

/-!
Verification of the document-retrieval core of the oht-assistant repository.

The embedding models the Python code in `app/ai/core.py` and
`app/ai/advanced_core.py` over `List Char` texts:

* `simple_split_text` embeds `SimpleKnowledgeBase.simple_split_text`
  (the chunker, including the backward boundary search done with
  `str.rfind` over the ordered separator list `['. ', '\n\n', '\n', ' ']`);
* `simpleSearch` embeds `SimpleKnowledgeBase.search` (lexical scoring;
  Python's stable `list.sort(key=score, reverse=True)` is modelled by a
  stable descending insertion sort, scores are exact rationals);
* `advancedSearch` embeds `AdvancedKnowledgeBase.search` (fallback to the
  lexical search when the vector store or the embeddings are absent or
  the backend call fails);
* `searchByType` embeds `EnhancedKnowledgeBase.search_by_type`;
* `analyzeQuery` embeds `EnhancedKnowledgeBase.analyze_query`.

The chunking loop of `simple_split_text` is written with an explicit
fuel argument equal to the text length so that it is structurally
recursive and kernel-evaluable; `splitGo_fuel` proves that any fuel of at
least the text length computes the same list when `chunk_size ≥ 1`, so
the fuel never cuts the loop short (it exactly mirrors the Python loop,
which terminates for `chunk_size ≥ 1` because the window start strictly
advances on every iteration — see the termination theorem).
-/

/-- Python `str`-level whitespace predicate restricted to the ASCII
whitespace characters (`' '`, `'\t'`, `'\n'`, `'\r'`, `'\x0b'`, `'\x0c'`),
the ones relevant to this corpus. -/
def pyIsSpace (c : Char) : Bool :=
  c == ' ' || c == '\t' || c == '\n' || c == '\r' ||
  c == Char.ofNat 11 || c == Char.ofNat 12

/-- Python `str.lower` restricted to ASCII Latin and Cyrillic letters
(`А`..`Я` map to `а`..`я`, `Ё` to `ё`), the alphabets this corpus uses. -/
def lowerChar (c : Char) : Char :=
  if 'A' ≤ c ∧ c ≤ 'Z' then Char.ofNat (c.toNat + 32)
  else if 0x410 ≤ c.toNat ∧ c.toNat ≤ 0x42F then Char.ofNat (c.toNat + 32)
  else if c.toNat = 0x401 then Char.ofNat 0x451
  else c

/-- Lowercasing of a text, character by character. -/
def lowerList (l : List Char) : List Char := l.map lowerChar

/-- Python `str.strip()`: drop leading and trailing whitespace. -/
def strip (l : List Char) : List Char :=
  ((l.dropWhile pyIsSpace).reverse.dropWhile pyIsSpace).reverse

/-- Accumulator worker for `splitWs`: `cur` holds the reversed current
word. -/
def splitWsAux : List Char → List Char → List (List Char)
  | [], cur => if cur = [] then [] else [cur.reverse]
  | c :: cs, cur =>
    if pyIsSpace c then
      if cur = [] then splitWsAux cs [] else cur.reverse :: splitWsAux cs []
    else splitWsAux cs (c :: cur)

/-- Python `str.split()` (no argument): split on whitespace runs,
dropping empty pieces. -/
def splitWs (l : List Char) : List (List Char) := splitWsAux l []

/-- Helper for `rfind`: the largest position `i ≤ start` at which `pat`
occurs in `t`, scanning downward as Python `str.rfind` does. -/
def rfindFrom (t pat : List Char) : ℕ → Option ℕ
  | 0 => if pat.isPrefixOf t then some 0 else none
  | (i + 1) =>
    if pat.isPrefixOf (t.drop (i + 1)) then some (i + 1) else rfindFrom t pat i

/-- Python `t.rfind(pat, 0, n)` (relative to the current window start):
the largest `i` with `i + pat.length ≤ n` such that `pat` occurs in `t`
at position `i`, or `none`. -/
def rfind (t pat : List Char) (n : ℕ) : Option ℕ :=
  if pat.length ≤ n then rfindFrom t pat (n - pat.length) else none

/-- One step of the chunking loop of `simple_split_text`, expressed
relative to the current window start: the cut position `end - start`.
If the window end falls inside the text, the separators `'. '`, `'\n\n'`,
`'\n'`, `' '` are tried in order via `rfind`; the first hit moves the cut
to just after the separator, otherwise (and when the window covers the
rest of the text) the cut stays at `chunk_size`. -/
def nextEnd (t : List Char) (n : ℕ) : ℕ :=
  if n < t.length then
    match rfind t ['.', ' '] n with
    | some p => p + 2
    | none =>
      match rfind t ['\n', '\n'] n with
      | some p => p + 2
      | none =>
        match rfind t ['\n'] n with
        | some p => p + 1
        | none =>
          match rfind t [' '] n with
          | some p => p + 1
          | none => n
  else n

theorem rfindFrom_le (t pat : List Char) (i : ℕ) (p : ℕ)
    (h : rfindFrom t pat i = some p) : p ≤ i := by
  induction i with
  | zero =>
    simp only [rfindFrom] at h
    split at h <;> simp_all
  | succ i ih =>
    simp only [rfindFrom] at h
    split at h
    · simp_all
    · exact Nat.le_succ_of_le (ih h)

theorem rfind_le (t pat : List Char) (n : ℕ) (p : ℕ)
    (h : rfind t pat n = some p) : p + pat.length ≤ n := by
  simp only [rfind] at h
  split at h
  · have := rfindFrom_le t pat _ _ h
    omega
  · simp_all

theorem nextEnd_le (t : List Char) (n : ℕ) : nextEnd t n ≤ n := by
  simp only [nextEnd]
  split
  · repeat' split
    all_goals first
      | rfl
      | (rename_i p hp; have := rfind_le _ _ _ _ hp; simp at this; omega)
  · rfl

theorem one_le_nextEnd (t : List Char) (n : ℕ) (hn : 1 ≤ n) :
    1 ≤ nextEnd t n := by
  simp only [nextEnd]
  split
  · repeat' split
    all_goals omega
  · omega

/-- Fueled body of the chunking loop of
`SimpleKnowledgeBase.simple_split_text`: cut the text at `nextEnd`,
strip the cut segment, keep it if non-empty, continue on the rest. -/
def splitGo : ℕ → List Char → ℕ → List (List Char)
  | 0, _, _ => []
  | fuel + 1, t, n =>
    if t = [] then []
    else
      let e := nextEnd t n
      let chunk := strip (t.take e)
      let rest := splitGo fuel (t.drop e) n
      if chunk = [] then rest else chunk :: rest

/-- Embedding of `SimpleKnowledgeBase.simple_split_text`. The hypothesis
`1 ≤ chunk_size` is the termination precondition of the Python loop
(with `chunk_size = 0` the loop would not advance); under it the fuel
`t.length` is never exhausted (`splitGo_fuel`). -/
def simple_split_text (t : List Char) (n : ℕ) (h : 1 ≤ n) : List (List Char) :=
  splitGo t.length t n

/-- Fueled collector of the untrimmed cut segments of the same loop:
`text[start:end]` at each iteration, before `strip` and the emptiness
filter. -/
def segsGo : ℕ → List Char → ℕ → List (List Char)
  | 0, _, _ => []
  | fuel + 1, t, n =>
    if t = [] then []
    else (t.take (nextEnd t n)) :: segsGo fuel (t.drop (nextEnd t n)) n

/-- The untrimmed cut segments of the chunking loop. -/
def split_segments (t : List Char) (n : ℕ) (h : 1 ≤ n) : List (List Char) :=
  segsGo t.length t n

theorem splitGo_nil (fuel : ℕ) (n : ℕ) : splitGo fuel [] n = [] := by
  cases fuel <;> rfl

theorem segsGo_nil (fuel : ℕ) (n : ℕ) : segsGo fuel [] n = [] := by
  cases fuel <;> rfl

theorem splitGo_eq (fuel₁ : ℕ) : ∀ (fuel₂ : ℕ) (t : List Char) (n : ℕ),
    1 ≤ n → t.length ≤ fuel₁ → t.length ≤ fuel₂ →
    splitGo fuel₁ t n = splitGo fuel₂ t n := by
  induction fuel₁ with
  | zero =>
    intro fuel₂ t n _ hle _
    have ht : t = [] := List.length_eq_zero.mp (Nat.le_zero.mp hle)
    subst ht
    rw [splitGo_nil, splitGo_nil]
  | succ fuel₁ ih =>
    intro fuel₂ t n hn hle₁ hle₂
    match t with
    | [] => rw [splitGo_nil, splitGo_nil]
    | c :: cs =>
      match fuel₂ with
      | 0 => simp at hle₂
      | fuel₂ + 1 =>
        have hne : c :: cs ≠ [] := by simp
        have he1 : 1 ≤ nextEnd (c :: cs) n := one_le_nextEnd _ n hn
        have hdl : ((c :: cs).drop (nextEnd (c :: cs) n)).length
            = (c :: cs).length - nextEnd (c :: cs) n := List.length_drop _ _
        have hlen : (c :: cs).length = cs.length + 1 := by simp
        simp only [splitGo, if_neg hne]
        rw [ih fuel₂ _ n hn (by omega) (by omega)]

theorem segsGo_eq (fuel₁ : ℕ) : ∀ (fuel₂ : ℕ) (t : List Char) (n : ℕ),
    1 ≤ n → t.length ≤ fuel₁ → t.length ≤ fuel₂ →
    segsGo fuel₁ t n = segsGo fuel₂ t n := by
  induction fuel₁ with
  | zero =>
    intro fuel₂ t n _ hle _
    have ht : t = [] := List.length_eq_zero.mp (Nat.le_zero.mp hle)
    subst ht
    rw [segsGo_nil, segsGo_nil]
  | succ fuel₁ ih =>
    intro fuel₂ t n hn hle₁ hle₂
    match t with
    | [] => rw [segsGo_nil, segsGo_nil]
    | c :: cs =>
      match fuel₂ with
      | 0 => simp at hle₂
      | fuel₂ + 1 =>
        have hne : c :: cs ≠ [] := by simp
        have he1 : 1 ≤ nextEnd (c :: cs) n := one_le_nextEnd _ n hn
        have hdl : ((c :: cs).drop (nextEnd (c :: cs) n)).length
            = (c :: cs).length - nextEnd (c :: cs) n := List.length_drop _ _
        have hlen : (c :: cs).length = cs.length + 1 := by simp
        simp only [segsGo, if_neg hne]
        rw [ih fuel₂ _ n hn (by omega) (by omega)]

/-- One-step unfolding of `simple_split_text` on a non-empty text. -/
theorem simple_split_text_cons (t : List Char) (n : ℕ) (h : 1 ≤ n)
    (ht : t ≠ []) :
    simple_split_text t n h =
      (if strip (t.take (nextEnd t n)) = []
       then simple_split_text (t.drop (nextEnd t n)) n h
       else strip (t.take (nextEnd t n)) ::
         simple_split_text (t.drop (nextEnd t n)) n h) := by
  have hlen : 0 < t.length := List.length_pos.mpr ht
  have he1 : 1 ≤ nextEnd t n := one_le_nextEnd t n h
  have hdl : (t.drop (nextEnd t n)).length = t.length - nextEnd t n :=
    List.length_drop _ _
  have h2 : t.length = (t.length - 1) + 1 := by omega
  simp only [simple_split_text]
  rw [h2]
  simp only [splitGo, if_neg ht]
  rw [splitGo_eq (t.length - 1) (t.drop (nextEnd t n)).length (t.drop (nextEnd t n)) n h (by omega) (by omega)]

/-- One-step unfolding of `split_segments` on a non-empty text. -/
theorem split_segments_cons (t : List Char) (n : ℕ) (h : 1 ≤ n)
    (ht : t ≠ []) :
    split_segments t n h =
      (t.take (nextEnd t n)) :: split_segments (t.drop (nextEnd t n)) n h := by
  have hlen : 0 < t.length := List.length_pos.mpr ht
  have he1 : 1 ≤ nextEnd t n := one_le_nextEnd t n h
  have hdl : (t.drop (nextEnd t n)).length = t.length - nextEnd t n :=
    List.length_drop _ _
  have h2 : t.length = (t.length - 1) + 1 := by omega
  simp only [split_segments]
  rw [h2]
  simp only [segsGo, if_neg ht]
  rw [segsGo_eq (t.length - 1) (t.drop (nextEnd t n)).length (t.drop (nextEnd t n)) n h (by omega) (by omega)]

/-- Python's substring test `pat in t`. -/
def hasSub (pat : List Char) : List Char → Bool
  | [] => pat.isEmpty
  | c :: cs => pat.isPrefixOf (c :: cs) || hasSub pat cs

/-- A stored fragment as kept in `SimpleKnowledgeBase.documents`:
`content`, `source` (file name) and `chunk` (sequence index). -/
structure Doc where
  content : List Char
  source : List Char
  chunk : ℕ
deriving DecidableEq

/-- The inner loop of `SimpleKnowledgeBase.search`: one point per query
word (with multiplicity) that is longer than 3 characters and occurs as a
substring of the lowercased fragment content. -/
def wordScore (qws : List (List Char)) (content_lower : List Char) : ℕ :=
  (qws.filter (fun w => w.length > 3 && hasSub w content_lower)).length

/-- Score normalization of `SimpleKnowledgeBase.search`:
`min(score / len(query_words), 1.0) if query_words else 0`, over exact
rationals. -/
def normScore (qws : List (List Char)) (content_lower : List Char) : ℚ :=
  if qws = [] then 0
  else min ((wordScore qws content_lower : ℚ) / (qws.length : ℚ)) 1

/-- The candidate-building loop of `SimpleKnowledgeBase.search`: each
stored document with a positive raw score, paired with its normalized
score, in store order. -/
def scored (docs : List Doc) (q : List Char) : List (Doc × ℚ) :=
  docs.filterMap (fun d =>
    let qws := splitWs (lowerList q)
    if 0 < wordScore qws (lowerList d.content)
    then some (d, normScore qws (lowerList d.content))
    else none)

/-- Stable descending insertion: `x` is placed before the first element
whose key is not larger, so elements with equal keys keep their original
relative order. -/
def insertDesc {α κ : Type} [LinearOrder κ] (key : α → κ) (x : α) :
    List α → List α
  | [] => [x]
  | y :: ys => if key x < key y then y :: insertDesc key x ys else x :: y :: ys

/-- Stable descending sort by `key`: the model of Python's stable
`list.sort(key=key, reverse=True)`. -/
def sortDesc {α κ : Type} [LinearOrder κ] (key : α → κ) : List α → List α
  | [] => []
  | x :: xs => insertDesc key x (sortDesc key xs)

/-- Embedding of `SimpleKnowledgeBase.search`: score all stored
documents, keep the positively scored ones, sort stably by descending
score, return the first `k`. -/
def simpleSearch (docs : List Doc) (q : List Char) (k : ℕ) : List (Doc × ℚ) :=
  (sortDesc (fun r => r.2) (scored docs q)).take k

theorem mem_insertDesc {α κ : Type} [LinearOrder κ] (key : α → κ) (x a : α)
    (l : List α) : a ∈ insertDesc key x l ↔ a = x ∨ a ∈ l := by
  induction l with
  | nil => simp [insertDesc]
  | cons y ys ih =>
    simp only [insertDesc]
    split
    · simp only [List.mem_cons, ih]
      constructor
      · rintro (rfl | h)
        · tauto
        · tauto
      · rintro (rfl | rfl | h)
        · tauto
        · tauto
        · tauto
    · simp only [List.mem_cons]

theorem mem_sortDesc {α κ : Type} [LinearOrder κ] (key : α → κ) (a : α)
    (l : List α) : a ∈ sortDesc key l ↔ a ∈ l := by
  induction l with
  | nil => simp [sortDesc]
  | cons x xs ih =>
    simp only [sortDesc, mem_insertDesc, List.mem_cons, ih]

theorem pairwise_insertDesc {α κ : Type} [LinearOrder κ] (key : α → κ)
    (R : α → α → Prop) (x : α) (l : List α)
    (hl : l.Pairwise (fun a b => key b ≤ key a ∧ (key a ≤ key b → R a b)))
    (hx : ∀ w ∈ l, R x w) :
    (insertDesc key x l).Pairwise
      (fun a b => key b ≤ key a ∧ (key a ≤ key b → R a b)) := by
  induction l with
  | nil => simp [insertDesc]
  | cons y ys ih =>
    simp only [insertDesc]
    rcases List.pairwise_cons.mp hl with ⟨hy, hys⟩
    split
    · rename_i hlt
      refine List.pairwise_cons.mpr ⟨?_, ?_⟩
      · intro z hz
        rcases (mem_insertDesc key x z ys).mp hz with rfl | hz
        · exact ⟨le_of_lt hlt, fun hle => absurd hlt (not_lt.mpr hle)⟩
        · exact hy z hz
      · exact ih hys (fun w hw => hx w (List.mem_cons_of_mem y hw))
    · rename_i hge
      push_neg at hge
      refine List.pairwise_cons.mpr ⟨?_, hl⟩
      intro z hz
      rcases List.mem_cons.mp hz with rfl | hz
      · exact ⟨hge, fun _ => hx z (List.mem_cons_self _ _)⟩
      · exact ⟨le_trans (hy z hz).1 hge, fun _ => hx z (List.mem_cons_of_mem y hz)⟩

theorem pairwise_sortDesc {α κ : Type} [LinearOrder κ] (key : α → κ)
    (R : α → α → Prop) (l : List α) (hl : l.Pairwise R) :
    (sortDesc key l).Pairwise
      (fun a b => key b ≤ key a ∧ (key a ≤ key b → R a b)) := by
  induction l with
  | nil => simp [sortDesc]
  | cons x xs ih =>
    rcases List.pairwise_cons.mp hl with ⟨hx, hxs⟩
    exact pairwise_insertDesc key R x (sortDesc key xs) (ih hxs)
      (fun w hw => hx w ((mem_sortDesc key w xs).mp hw))

theorem filter_insertDesc {α κ : Type} [LinearOrder κ] (key : α → κ)
    (x : α) (l : List α) (s : κ) :
    (insertDesc key x l).filter (fun a => key a = s) =
      (if key x = s then x :: l.filter (fun a => key a = s)
       else l.filter (fun a => key a = s)) := by
  induction l with
  | nil =>
    by_cases hx : key x = s <;> simp [insertDesc, List.filter_cons, hx]
  | cons y ys ih =>
    simp only [insertDesc]
    split
    · rename_i hlt
      by_cases hx : key x = s
      · have hy : ¬ (key y = s) := by
          intro hy
          rw [hx] at hlt
          rw [hy] at hlt
          exact lt_irrefl s hlt
        simp [List.filter_cons, hx, hy, ih]
      · by_cases hy : key y = s <;>
          simp [List.filter_cons, hx, hy, ih]
    · by_cases hx : key x = s <;>
        simp [List.filter_cons, hx]

theorem filter_sortDesc {α κ : Type} [LinearOrder κ] (key : α → κ)
    (l : List α) (s : κ) :
    (sortDesc key l).filter (fun a => key a = s) =
      l.filter (fun a => key a = s) := by
  induction l with
  | nil => simp [sortDesc]
  | cons x xs ih =>
    simp only [sortDesc, filter_insertDesc, ih, List.filter_cons]
    by_cases hx : key x = s
    · simp [hx]
    · simp [hx]

theorem filter_take_prefix {α : Type} (p : α → Bool) (l : List α) (k : ℕ) :
    (l.take k).filter p <+: l.filter p :=
  ⟨(l.drop k).filter p, by rw [← List.filter_append, List.take_append_drop]⟩

/-- Embedding of `AdvancedKnowledgeBase.search`: the vector store (when
loaded) is a backend query function that may fail; the embeddings model
is an optional handle. When either is absent (`None`) or the backend call
raises, the method returns `super().search(query, k)`, the lexical
search; the result type carries no error, mirroring that no backend
failure reaches the caller. -/
def advancedSearch (docs : List Doc)
    (vectorstore : Option (List Char → ℕ → Except (List Char) (List (Doc × ℚ))))
    (embeddings : Option Unit) (q : List Char) (k : ℕ) : List (Doc × ℚ) :=
  match vectorstore, embeddings with
  | some vs, some _ =>
    match vs q k with
    | Except.ok r => r
    | Except.error _ => simpleSearch docs q k
  | _, _ => simpleSearch docs q k

/-- Embedding of `EnhancedKnowledgeBase.search_by_type` over the lexical
search (the claim's sources bind `self.search` to
`SimpleKnowledgeBase.search`): take `k * 3` candidates, filter them by a
case-insensitive substring match of the requested type against each
fragment's source, return up to `k` of the filtered list when it is
non-empty and up to `k` of the unfiltered candidates otherwise. A `none`
or empty `doc_type` (falsy in Python) skips the filtering. -/
def searchByType (docs : List Doc) (q : List Char) (docType : Option (List Char))
    (k : ℕ) : List (Doc × ℚ) :=
  let all_results := simpleSearch docs q (k * 3)
  match docType with
  | some dt =>
    if dt = [] then all_results.take k
    else
      let filtered := all_results.filter
        (fun r => hasSub (lowerList dt) (lowerList r.1.source))
      if filtered = [] then all_results.take k else filtered.take k
  | none => all_results.take k

/-- The keyword table of `EnhancedKnowledgeBase.analyze_query`, in its
Python insertion order (which is the tie-breaking priority order of the
stable sort). -/
def lawKeywords : List (String × List String) :=
  [("tk_rf", ["отпуск", "рабочее время", "зарплата", "больничный",
              "увольнение", "трудовой договор", "отпускные", "график работы"]),
   ("426_fz", ["соут", "специальная оценка", "вредные условия", "аттестация",
               "рабочее место", "компенсации", "льготы"]),
   ("2464_pp", ["обучение", "инструктаж", "проверка знаний", "курсы",
                "программа обучения", "вводный инструктаж"]),
   ("776n_prikaz", ["суот", "система управления", "политика", "процедуры",
                    "мониторинг", "аудит", "управление рисками"]),
   ("772n_prikaz", ["инструкция", "правила", "разработка", "содержание",
                    "утверждение", "пересмотр", "ознакомление"])]

/-- Number of keywords of one category that occur as substrings of the
lowercased query (`sum(1 for word in words if word in query_lower)`). -/
def matchCount (kws : List String) (q : List Char) : ℕ :=
  (kws.filter (fun w => hasSub w.data (lowerList q))).length

/-- Embedding of `EnhancedKnowledgeBase.analyze_query`: keep categories
with a positive keyword match count, sort them stably by descending
count, return the top 3 and the total match count. -/
def analyzeQuery (q : List Char) : List (String × ℕ) × ℕ :=
  let scores := lawKeywords.filterMap (fun e =>
    if 0 < matchCount e.2 q then some (e.1, matchCount e.2 q) else none)
  let sorted_laws := sortDesc (fun p => p.2) scores
  (sorted_laws.take 3, (scores.map (fun p => p.2)).sum)

/-- The fixed category priority order (Python dict insertion order of the
keyword table). -/
def catOrder : List String := lawKeywords.map Prod.fst

/-- Position of a category in the fixed priority order. -/
def catIdx (s : String) : ℕ := catOrder.indexOf s

/-- The scoring formula exactly as claim C1 words it (spec side, for
comparison with the code's `normScore`): the number of distinct
post-filter query terms (lowercased, whitespace-split, terms shorter
than the minimum length threshold discarded — the threshold matching the
code's `len(word) > 3` filter) that occur as substrings of the lowercased
fragment text, divided by the total number of post-filter query terms,
capped at 1.0. -/
def claimedScoreC1 (q content : List Char) : ℚ :=
  let terms := (splitWs (lowerList q)).filter (fun w => w.length > 3)
  let matching := terms.dedup.filter (fun w => hasSub w (lowerList content))
  if terms = [] then 0
  else min ((matching.length : ℚ) / (terms.length : ℚ)) 1

/-- The amended C1 formula: the number of occurrences (with multiplicity)
of whitespace-split query tokens longer than 3 characters that occur as
substrings of the lowercased fragment text, divided by the total number
of whitespace-split query tokens (including the discarded short ones),
capped at 1.0. -/
def amendedScoreC1 (q content : List Char) : ℚ :=
  let tokens := splitWs (lowerList q)
  let hits := tokens.filter (fun w => w.length > 3 && hasSub w (lowerList content))
  if tokens = [] then 0
  else min ((hits.length : ℚ) / (tokens.length : ℚ)) 1

theorem strip_length_le (l : List Char) : (strip l).length ≤ l.length := by
  simp only [strip, List.length_reverse]
  calc ((l.dropWhile pyIsSpace).reverse.dropWhile pyIsSpace).length
      ≤ (l.dropWhile pyIsSpace).reverse.length :=
        (List.dropWhile_sublist pyIsSpace).length_le
    _ = (l.dropWhile pyIsSpace).length := List.length_reverse _
    _ ≤ l.length := (List.dropWhile_sublist pyIsSpace).length_le

theorem strip_eq_nil_iff (l : List Char) :
    strip l = [] ↔ ∀ c ∈ l, pyIsSpace c := by
  simp only [strip]
  constructor
  · intro h c hc
    have h1 : (l.dropWhile pyIsSpace).reverse.dropWhile pyIsSpace = [] := by
      cases he : (l.dropWhile pyIsSpace).reverse.dropWhile pyIsSpace with
      | nil => rfl
      | cons a as => rw [he] at h; simp at h
    have h2 : ∀ c ∈ (l.dropWhile pyIsSpace).reverse, pyIsSpace c :=
      List.dropWhile_eq_nil_iff.mp h1
    have h3 : ∀ c ∈ l.dropWhile pyIsSpace, pyIsSpace c := by
      intro c hc
      exact h2 c (List.mem_reverse.mpr hc)
    have h4 : ∀ c ∈ l.takeWhile pyIsSpace, pyIsSpace c := by
      intro c hc
      exact List.mem_takeWhile_imp hc
    have h5 : l = l.takeWhile pyIsSpace ++ l.dropWhile pyIsSpace :=
      (List.takeWhile_append_dropWhile pyIsSpace l).symm
    rw [h5] at hc
    rcases List.mem_append.mp hc with hc | hc
    · exact h4 c hc
    · exact h3 c hc
  · intro h
    have h1 : l.dropWhile pyIsSpace = [] := List.dropWhile_eq_nil_iff.mpr h
    rw [h1]
    rfl

theorem segsGo_flatten (fuel : ℕ) : ∀ (t : List Char) (n : ℕ),
    t.length ≤ fuel → 1 ≤ n → (segsGo fuel t n).flatten = t := by
  induction fuel with
  | zero =>
    intro t n hle _
    have ht : t = [] := List.length_eq_zero.mp (Nat.le_zero.mp hle)
    subst ht
    rfl
  | succ fuel ih =>
    intro t n hle hn
    by_cases ht : t = []
    · subst ht; rfl
    · have he1 : 1 ≤ nextEnd t n := one_le_nextEnd t n hn
      have hdl : (t.drop (nextEnd t n)).length = t.length - nextEnd t n :=
        List.length_drop _ _
      have hlp : 0 < t.length := List.length_pos.mpr ht
      simp only [segsGo, if_neg ht, List.flatten_cons]
      rw [ih _ n (by omega) hn]
      exact List.take_append_drop _ t

theorem splitGo_eq_filter (fuel : ℕ) : ∀ (t : List Char) (n : ℕ),
    splitGo fuel t n =
      ((segsGo fuel t n).map strip).filter (fun c => c ≠ []) := by
  induction fuel with
  | zero => intro t n; rfl
  | succ fuel ih =>
    intro t n
    by_cases ht : t = []
    · subst ht; rfl
    · simp only [splitGo, segsGo, if_neg ht, List.map_cons, List.filter_cons]
      by_cases hc : strip (t.take (nextEnd t n)) = []
      · simp [hc, ih]
      · simp [hc, ih]

/-- C6: for every input text and every `chunk_size ≥ 1`, the untrimmed
cut segments of the chunking loop concatenate exactly to the original
text, and the produced chunks are precisely the stripped segments with
the empty ones dropped — i.e. concatenating the chunks reconstructs the
text up to the whitespace removed by trimming at the cut points. -/
theorem claim_C6_chunk_coverage (t : List Char) (n : ℕ) (h : 1 ≤ n) :
    (split_segments t n h).flatten = t ∧
    simple_split_text t n h =
      ((split_segments t n h).map strip).filter (fun c => c ≠ []) := by
  constructor
  · exact segsGo_flatten t.length t n (le_refl _) h
  · exact splitGo_eq_filter t.length t n

/-- Witness for C6 at a concrete text and chunk size. -/
theorem claim_C6_chunk_coverage_witness :
    (split_segments "ab cd".data 3 (by norm_num)).flatten = "ab cd".data ∧
    simple_split_text "ab cd".data 3 (by norm_num) =
      ((split_segments "ab cd".data 3 (by norm_num)).map strip).filter
        (fun c => c ≠ []) :=
  claim_C6_chunk_coverage "ab cd".data 3 (by norm_num)

theorem mem_splitGo (fuel : ℕ) : ∀ (t : List Char) (n : ℕ) (c : List Char),
    c ∈ splitGo fuel t n → c ≠ [] ∧ c.length ≤ n := by
  induction fuel with
  | zero => intro t n c hc; simp [splitGo] at hc
  | succ fuel ih =>
    intro t n c hc
    by_cases ht : t = []
    · subst ht; simp [splitGo] at hc
    · simp only [splitGo, if_neg ht] at hc
      have hlen : (strip (t.take (nextEnd t n))).length ≤ n := by
        calc (strip (t.take (nextEnd t n))).length
            ≤ (t.take (nextEnd t n)).length := strip_length_le _
          _ ≤ nextEnd t n := by
              rw [List.length_take]
              exact min_le_left _ _
          _ ≤ n := nextEnd_le t n
      by_cases hc0 : strip (t.take (nextEnd t n)) = []
      · rw [if_pos hc0] at hc
        exact ih _ n c hc
      · rw [if_neg hc0] at hc
        rcases List.mem_cons.mp hc with rfl | hc
        · exact ⟨hc0, hlen⟩
        · exact ih _ n c hc

theorem splitGo_all_ws (fuel : ℕ) : ∀ (t : List Char) (n : ℕ),
    (∀ ch ∈ t, pyIsSpace ch) → splitGo fuel t n = [] := by
  induction fuel with
  | zero => intro t n _; rfl
  | succ fuel ih =>
    intro t n hws
    by_cases ht : t = []
    · subst ht; rfl
    · have hc0 : strip (t.take (nextEnd t n)) = [] := by
        rw [strip_eq_nil_iff]
        intro ch hch
        exact hws ch (List.take_subset _ _ hch)
      simp only [splitGo, if_neg ht, if_pos hc0]
      exact ih _ n (fun ch hch => hws ch (List.drop_subset _ _ hch))

/-- C7: every produced chunk is non-empty and at most `chunk_size` long;
a whitespace-only (in particular empty) text yields no chunks; a text
with a non-whitespace character that is shorter than `chunk_size` yields
exactly one chunk, the whole stripped text. -/
theorem claim_C7_chunk_bounds (t : List Char) (n : ℕ) (h : 1 ≤ n) :
    (∀ c ∈ simple_split_text t n h, c ≠ [] ∧ c.length ≤ n) ∧
    ((∀ ch ∈ t, pyIsSpace ch) → simple_split_text t n h = []) ∧
    ((∃ ch ∈ t, ¬ (pyIsSpace ch = true)) → t.length < n →
      simple_split_text t n h = [strip t]) := by
  refine ⟨fun c hc => mem_splitGo t.length t n c hc,
    fun hws => splitGo_all_ws t.length t n hws, ?_⟩
  rintro ⟨ch, hch, hnws⟩ hshort
  have ht : t ≠ [] := by
    intro he; subst he; simp at hch
  have hen : nextEnd t n = n := by
    simp only [nextEnd, if_neg (not_lt.mpr (le_of_lt hshort))]
  rw [simple_split_text_cons t n h ht, hen]
  have htake : t.take n = t := List.take_of_length_le (le_of_lt hshort)
  have hdrop : t.drop n = [] := List.drop_eq_nil_of_le (le_of_lt hshort)
  have hne : strip t ≠ [] := by
    rw [Ne, strip_eq_nil_iff]
    push_neg
    exact ⟨ch, hch, by simpa using hnws⟩
  rw [htake, hdrop, if_neg hne]
  simp [simple_split_text, splitGo]

/-- Witness for C7 at a concrete text and chunk size. -/
theorem claim_C7_chunk_bounds_witness :
    (" ab ".data.length < 9) ∧ simple_split_text " ab ".data 9 (by norm_num) = ["ab".data] := by
  refine ⟨by norm_num, ?_⟩
  have h := (claim_C7_chunk_bounds " ab ".data 9 (by norm_num)).2.2
  rw [h (by decide) (by decide)]
  decide

/-- C10: the chunking loop terminates because with `chunk_size ≥ 1` the
cut position of every iteration is at least 1 — a found boundary lies at
or after the current window start, so the new end is at least `start + 1`,
and otherwise the cut advances by `chunk_size` — hence the remaining text
strictly shrinks; with `chunk_size = 0` the cut position is 0 and the
loop would not advance. -/
theorem claim_C10_termination (t : List Char) (n : ℕ) (ht : t ≠ []) :
    (1 ≤ n → 1 ≤ nextEnd t n ∧ (t.drop (nextEnd t n)).length < t.length) ∧
    nextEnd t 0 = 0 := by
  have hlp : 0 < t.length := List.length_pos.mpr ht
  constructor
  · intro hn
    have h1 : 1 ≤ nextEnd t n := one_le_nextEnd t n hn
    refine ⟨h1, ?_⟩
    rw [List.length_drop]
    omega
  · have h0 : nextEnd t 0 ≤ 0 := nextEnd_le t 0
    omega

/-- Witness for C10 at a concrete text. -/
theorem claim_C10_termination_witness :
    (1 ≤ nextEnd "ab".data 1 ∧
      ("ab".data.drop (nextEnd "ab".data 1)).length < "ab".data.length) ∧
    nextEnd "ab".data 0 = 0 := by
  have h := claim_C10_termination "ab".data 1 (by decide)
  exact ⟨h.1 (by norm_num), h.2⟩

theorem mem_scored (docs : List Doc) (q : List Char) (r : Doc × ℚ) :
    r ∈ scored docs q ↔ ∃ d ∈ docs,
      0 < wordScore (splitWs (lowerList q)) (lowerList d.content) ∧
      r = (d, normScore (splitWs (lowerList q)) (lowerList d.content)) := by
  simp only [scored, List.mem_filterMap]
  constructor
  · rintro ⟨d, hd, hsome⟩
    by_cases hpos : 0 < wordScore (splitWs (lowerList q)) (lowerList d.content)
    · rw [if_pos hpos] at hsome
      exact ⟨d, hd, hpos, (Option.some_inj.mp hsome).symm⟩
    · rw [if_neg hpos] at hsome
      exact absurd hsome (Option.noConfusion)
  · rintro ⟨d, hd, hpos, rfl⟩
    exact ⟨d, hd, by rw [if_pos hpos]⟩

theorem mem_simpleSearch (docs : List Doc) (q : List Char) (k : ℕ)
    (r : Doc × ℚ) (hr : r ∈ simpleSearch docs q k) : r ∈ scored docs q := by
  have h1 : r ∈ sortDesc (fun r : Doc × ℚ => r.2) (scored docs q) :=
    List.take_subset _ _ hr
  exact (mem_sortDesc _ r _).mp h1

theorem normScore_pos (qws : List (List Char)) (cl : List Char)
    (h : 0 < wordScore qws cl) : 0 < normScore qws cl ∧ normScore qws cl ≤ 1 := by
  have hne : qws ≠ [] := by
    intro he
    subst he
    simp [wordScore] at h
  have hlen : 0 < (qws.length : ℚ) := by
    have : 0 < qws.length := List.length_pos.mpr hne
    exact_mod_cast this
  have hw : 0 < (wordScore qws cl : ℚ) := by exact_mod_cast h
  rw [normScore, if_neg hne]
  exact ⟨lt_min (div_pos hw hlen) one_pos, min_le_right _ _⟩

/-- C2: every result returned by `search` has a score in `(0, 1]`, and a
fragment in which no query term occurs as a substring of its lowercased
content never appears in the result list. -/
theorem claim_C2_score_bounds (docs : List Doc) (q : List Char) (k : ℕ) :
    (∀ r ∈ simpleSearch docs q k, 0 < r.2 ∧ r.2 ≤ 1) ∧
    (∀ d ∈ docs,
      (∀ w ∈ splitWs (lowerList q), hasSub w (lowerList d.content) = false) →
      ∀ s : ℚ, (d, s) ∉ simpleSearch docs q k) := by
  constructor
  · intro r hr
    rcases (mem_scored docs q r).mp (mem_simpleSearch docs q k r hr) with
      ⟨d, _, hpos, rfl⟩
    exact normScore_pos _ _ hpos
  · intro d _ hnone s hmem
    rcases (mem_scored docs q (d, s)).mp (mem_simpleSearch docs q k _ hmem) with
      ⟨d2, _, hpos, heq⟩
    have hd : d2 = d := congrArg Prod.fst heq.symm
    subst hd
    have hzero : wordScore (splitWs (lowerList q)) (lowerList d2.content) = 0 := by
      rw [wordScore, List.length_eq_zero, List.filter_eq_nil_iff]
      intro w hw
      rw [hnone w hw]
      simp
    rw [hzero] at hpos
    exact lt_irrefl 0 hpos

/-- Witness for C2: a concrete matching fragment gets a score in `(0,1]`
and a concrete non-matching fragment never appears. -/
theorem claim_C2_score_bounds_witness :
    (0 < normScore (splitWs (lowerList "cat elephant".data))
        (lowerList "an elephant".data) ∧
      normScore (splitWs (lowerList "cat elephant".data))
        (lowerList "an elephant".data) ≤ 1) ∧
    ((⟨"пусто".data, "a.txt".data, 0⟩ : Doc), (1 : ℚ)) ∉
      simpleSearch [⟨"an elephant".data, "tk_rf.txt".data, 0⟩,
        ⟨"пусто".data, "a.txt".data, 0⟩] "cat elephant".data 5 := by
  constructor
  · refine (claim_C2_score_bounds
      [⟨"an elephant".data, "tk_rf.txt".data, 0⟩,
       ⟨"пусто".data, "a.txt".data, 0⟩] "cat elephant".data 5).1
      (⟨"an elephant".data, "tk_rf.txt".data, 0⟩,
        normScore (splitWs (lowerList "cat elephant".data))
          (lowerList "an elephant".data)) ?_
    exact List.Mem.head _
  · exact (claim_C2_score_bounds
      [⟨"an elephant".data, "tk_rf.txt".data, 0⟩,
       ⟨"пусто".data, "a.txt".data, 0⟩] "cat elephant".data 5).2
      ⟨"пусто".data, "a.txt".data, 0⟩ (by decide) (by decide) 1

theorem pairwise_true {α : Type} (l : List α) :
    l.Pairwise (fun _ _ => True) := by
  induction l with
  | nil => exact List.Pairwise.nil
  | cons x xs ih => exact List.pairwise_cons.mpr ⟨fun _ _ => trivial, ih⟩

/-- C3: `search(q, k)` returns at most `k` results (none for `k = 0`),
sorted in non-increasing score order, and for every score value the
results carrying that score form a prefix of the positively-scored
candidates with that score in store (insertion) order — equal-score
results keep their original relative order. -/
theorem claim_C3_ranking (docs : List Doc) (q : List Char) (k : ℕ) :
    (simpleSearch docs q k).length ≤ k ∧
    simpleSearch docs q 0 = [] ∧
    (simpleSearch docs q k).Pairwise (fun a b => b.2 ≤ a.2) ∧
    ∀ s : ℚ, (simpleSearch docs q k).filter (fun r => r.2 = s) <+:
      (scored docs q).filter (fun r => r.2 = s) := by
  refine ⟨List.length_take_le _ _, by simp [simpleSearch], ?_, ?_⟩
  · have hp := pairwise_sortDesc (fun r : Doc × ℚ => r.2) (fun _ _ => True)
      (scored docs q) (pairwise_true _)
    have hp2 : (sortDesc (fun r : Doc × ℚ => r.2) (scored docs q)).Pairwise
        (fun a b => b.2 ≤ a.2) := hp.imp (fun h => h.1)
    exact hp2.sublist (List.take_sublist _ _)
  · intro s
    have h1 := filter_take_prefix
      (fun r : Doc × ℚ => decide (r.2 = s))
      (sortDesc (fun r : Doc × ℚ => r.2) (scored docs q)) k
    have h2 := filter_sortDesc (fun r : Doc × ℚ => r.2) (scored docs q) s
    simpa [simpleSearch, h2] using h1

/-- Witness for C3 at a concrete corpus and query. -/
theorem claim_C3_ranking_witness :
    (simpleSearch [⟨"an elephant".data, "a.txt".data, 0⟩]
      "cat elephant".data 2).length ≤ 2 ∧
    simpleSearch [⟨"an elephant".data, "a.txt".data, 0⟩]
      "cat elephant".data 0 = [] ∧
    (simpleSearch [⟨"an elephant".data, "a.txt".data, 0⟩]
      "cat elephant".data 2).Pairwise (fun a b => b.2 ≤ a.2) ∧
    (simpleSearch [⟨"an elephant".data, "a.txt".data, 0⟩]
      "cat elephant".data 2).filter (fun r => r.2 = normScore
        (splitWs (lowerList "cat elephant".data))
        (lowerList "an elephant".data)) <+:
      (scored [⟨"an elephant".data, "a.txt".data, 0⟩]
        "cat elephant".data).filter (fun r => r.2 = normScore
          (splitWs (lowerList "cat elephant".data))
          (lowerList "an elephant".data)) := by
  have h := claim_C3_ranking [⟨"an elephant".data, "a.txt".data, 0⟩]
    "cat elephant".data 2
  exact ⟨h.1, h.2.1, h.2.2.1, h.2.2.2 _⟩

/-- C9: a query with no usable terms (empty, whitespace-only, or with all
tokens at most 3 characters long) makes `search` return the empty list —
no result and no failure, the zero-score guard prevents the division. -/
theorem claim_C9_empty_query (docs : List Doc) (q : List Char) (k : ℕ)
    (hq : ∀ w ∈ splitWs (lowerList q), w.length ≤ 3) :
    simpleSearch docs q k = [] := by
  have hsc : scored docs q = [] := by
    rw [scored, List.filterMap_eq_nil_iff]
    intro d _
    have hzero : wordScore (splitWs (lowerList q)) (lowerList d.content) = 0 := by
      rw [wordScore, List.length_eq_zero, List.filter_eq_nil_iff]
      intro w hw
      have := hq w hw
      simp only [Bool.and_eq_true, decide_eq_true_eq]
      rintro ⟨h3, _⟩
      omega
    simp [hzero]
  simp [simpleSearch, hsc, sortDesc]

/-- Witness for C9: a query whose tokens are all at most 3 characters
long yields no results on a concrete corpus. -/
theorem claim_C9_empty_query_witness :
    simpleSearch [⟨"охрана труда".data, "a.txt".data, 0⟩] " a из bb ".data 5 = [] :=
  claim_C9_empty_query _ _ 5 (by decide)

theorem normScore_eval (qws : List (List Char)) (cl : List Char) (a b : ℕ)
    (h : qws ≠ []) (hw : wordScore qws cl = a) (hl : qws.length = b) :
    normScore qws cl = min ((a : ℚ) / (b : ℚ)) 1 := by
  rw [normScore, if_neg h, hw, hl]

theorem claimedScoreC1_eval (q c : List Char) (a b : ℕ)
    (h : (splitWs (lowerList q)).filter (fun w => w.length > 3) ≠ [])
    (hm : (((splitWs (lowerList q)).filter (fun w => w.length > 3)).dedup.filter
      (fun w => hasSub w (lowerList c))).length = a)
    (ht : ((splitWs (lowerList q)).filter (fun w => w.length > 3)).length = b) :
    claimedScoreC1 q c = min ((a : ℚ) / (b : ℚ)) 1 := by
  simp only [claimedScoreC1]
  rw [if_neg h, hm, ht]

/-- Counterexample to C1 as stated: for the query `"cat elephant"` and a
fragment `"an elephant"`, the search returns the score `1/2` (the code
divides the match count by the number of all whitespace-split query
tokens, the 3-character token `"cat"` included), while the claimed
formula — distinct matching post-filter terms over post-filter terms —
gives `1`. -/
theorem claim_C1_counterexample :
    (simpleSearch [⟨"an elephant".data, "a.txt".data, 0⟩]
      "cat elephant".data 5).map Prod.snd = [(1 : ℚ)/2] ∧
    claimedScoreC1 "cat elephant".data "an elephant".data = 1 ∧
    ((1 : ℚ)/2) ≠ 1 := by
  refine ⟨?_, ?_, by norm_num⟩
  · have hs : (simpleSearch [⟨"an elephant".data, "a.txt".data, 0⟩]
        "cat elephant".data 5).map Prod.snd =
        [normScore (splitWs (lowerList "cat elephant".data))
          (lowerList "an elephant".data)] := rfl
    rw [hs, normScore_eval _ _ 1 2 (by decide) (by decide) (by decide)]
    rw [min_eq_left (by norm_num)]
    norm_num
  · rw [claimedScoreC1_eval _ _ 1 1 (by decide) (by decide) (by decide)]
    rw [min_eq_left (by norm_num)]
    norm_num

/-- C1 (amended): the score returned by `search` for a fragment equals
the number of occurrences (with multiplicity) of whitespace-split query
tokens longer than 3 characters that occur as substrings of the
lowercased fragment text, divided by the total number of whitespace-split
query tokens (including the discarded short ones), capped at 1.0. -/
theorem claim_C1_amended_scoring (docs : List Doc) (q : List Char) (k : ℕ) :
    ∀ r ∈ simpleSearch docs q k, r.2 = amendedScoreC1 q r.1.content := by
  intro r hr
  rcases (mem_scored docs q r).mp (mem_simpleSearch docs q k r hr) with
    ⟨d, _, _, rfl⟩
  rfl

/-- Witness for the amended C1 at a concrete corpus and query. -/
theorem claim_C1_amended_scoring_witness :
    normScore (splitWs (lowerList "cat elephant".data))
      (lowerList "an elephant".data) =
    amendedScoreC1 "cat elephant".data "an elephant".data :=
  claim_C1_amended_scoring [⟨"an elephant".data, "a.txt".data, 0⟩]
    "cat elephant".data 5
    (⟨"an elephant".data, "a.txt".data, 0⟩,
      normScore (splitWs (lowerList "cat elephant".data))
        (lowerList "an elephant".data))
    (List.Mem.head _)

/-- C4: whenever the embedding backend is unavailable (no vector store or
no embeddings model) or its query raises, `AdvancedKnowledgeBase.search`
returns exactly the lexical search result on the same query and corpus;
the result type carries no error, so no backend failure reaches the
caller. -/
theorem claim_C4_backend_fallback (docs : List Doc)
    (vs : Option (List Char → ℕ → Except (List Char) (List (Doc × ℚ))))
    (emb : Option Unit) (q : List Char) (k : ℕ)
    (h : vs = none ∨ emb = none ∨
      ∃ f e, vs = some f ∧ f q k = Except.error e) :
    advancedSearch docs vs emb q k = simpleSearch docs q k := by
  rcases h with rfl | rfl | ⟨f, e, rfl, hf⟩
  · cases emb <;> rfl
  · cases vs <;> rfl
  · cases emb with
    | none => rfl
    | some u => simp [advancedSearch, hf]

/-- Witness for C4: a backend that always raises falls back to the
lexical search. -/
theorem claim_C4_backend_fallback_witness :
    advancedSearch [⟨"охрана труда".data, "a.txt".data, 0⟩]
      (some (fun _ _ => Except.error "index missing".data)) (some ())
      "охрана".data 3 =
    simpleSearch [⟨"охрана труда".data, "a.txt".data, 0⟩] "охрана".data 3 :=
  claim_C4_backend_fallback _ _ _ _ _
    (Or.inr (Or.inr ⟨_, "index missing".data, rfl, rfl⟩))

theorem hasSub_nil (l : List Char) : hasSub [] l = true := by
  cases l <;> rfl

theorem simpleSearch_take_3k (docs : List Doc) (q : List Char) (k : ℕ) :
    (simpleSearch docs q (k * 3)).take k = simpleSearch docs q k := by
  simp only [simpleSearch, List.take_take]
  congr 1
  omega

theorem searchByType_length_le (docs : List Doc) (q : List Char)
    (dtO : Option (List Char)) (k : ℕ) :
    (searchByType docs q dtO k).length ≤ k := by
  rcases dtO with _ | dt
  · exact List.length_take_le _ _
  · simp only [searchByType]
    split
    · exact List.length_take_le _ _
    · split
      · exact List.length_take_le _ _
      · exact List.length_take_le _ _

/-- C5: if the requested category matches no candidate's source among the
enlarged (`3·k`) candidate set, `search_by_type` returns exactly
`search(q, k)`; if some candidates match, it returns up to `k` of the
matching candidates in their original score order. -/
theorem claim_C5_category_fallback (docs : List Doc) (q dt : List Char)
    (k : ℕ) :
    ((∀ r ∈ simpleSearch docs q (k * 3),
        hasSub (lowerList dt) (lowerList r.1.source) = false) →
      searchByType docs q (some dt) k = simpleSearch docs q k) ∧
    ((∃ r ∈ simpleSearch docs q (k * 3),
        hasSub (lowerList dt) (lowerList r.1.source) = true) →
      searchByType docs q (some dt) k =
        ((simpleSearch docs q (k * 3)).filter
          (fun r => hasSub (lowerList dt) (lowerList r.1.source))).take k ∧
      (searchByType docs q (some dt) k).length ≤ k) := by
  constructor
  · intro hnone
    by_cases hdt : dt = []
    · subst hdt
      simp only [searchByType, if_pos rfl]
      exact simpleSearch_take_3k docs q k
    · have hfil : (simpleSearch docs q (k * 3)).filter
          (fun r => hasSub (lowerList dt) (lowerList r.1.source)) = [] :=
        List.filter_eq_nil_iff.mpr (fun r hr => by rw [hnone r hr]; simp)
      simp only [searchByType, if_neg hdt, hfil, if_pos rfl]
      exact simpleSearch_take_3k docs q k
  · rintro ⟨r, hr, hmatch⟩
    refine ⟨?_, searchByType_length_le docs q (some dt) k⟩
    by_cases hdt : dt = []
    · subst hdt
      have hall : (simpleSearch docs q (k * 3)).filter
          (fun r => hasSub (lowerList []) (lowerList r.1.source)) =
          simpleSearch docs q (k * 3) :=
        List.filter_eq_self.mpr (fun a _ => by
          simp only [lowerList, List.map_nil, hasSub_nil, decide_eq_true_eq])
      simp only [searchByType, if_pos rfl, hall]
      simp
    · have hmem : r ∈ (simpleSearch docs q (k * 3)).filter
          (fun r => hasSub (lowerList dt) (lowerList r.1.source)) :=
        List.mem_filter.mpr ⟨hr, by rw [hmatch]⟩
      have hne : (simpleSearch docs q (k * 3)).filter
          (fun r => hasSub (lowerList dt) (lowerList r.1.source)) ≠ [] := by
        intro he
        rw [he] at hmem
        simp at hmem
      simp only [searchByType, if_neg hdt, if_neg hne]

/-- Witness for C5: a category matching nothing falls back to the plain
search; a matching category returns the filtered candidates. -/
theorem claim_C5_category_fallback_witness :
    (searchByType [⟨"an elephant".data, "tk_rf.txt".data, 0⟩]
      "cat elephant".data (some "zz".data) 1 =
      simpleSearch [⟨"an elephant".data, "tk_rf.txt".data, 0⟩]
        "cat elephant".data 1) ∧
    (searchByType [⟨"an elephant".data, "tk_rf.txt".data, 0⟩]
      "cat elephant".data (some "tk".data) 1 =
      ((simpleSearch [⟨"an elephant".data, "tk_rf.txt".data, 0⟩]
        "cat elephant".data (1 * 3)).filter
          (fun r => hasSub (lowerList "tk".data) (lowerList r.1.source))).take 1) := by
  constructor
  · refine (claim_C5_category_fallback
      [⟨"an elephant".data, "tk_rf.txt".data, 0⟩]
      "cat elephant".data "zz".data 1).1 ?_
    intro r hr
    have hseq : simpleSearch [⟨"an elephant".data, "tk_rf.txt".data, 0⟩]
        "cat elephant".data (1 * 3) =
        [(⟨"an elephant".data, "tk_rf.txt".data, 0⟩,
          normScore (splitWs (lowerList "cat elephant".data))
            (lowerList "an elephant".data))] := rfl
    rw [hseq] at hr
    rw [List.mem_singleton.mp hr]
    decide
  · refine ((claim_C5_category_fallback
      [⟨"an elephant".data, "tk_rf.txt".data, 0⟩]
      "cat elephant".data "tk".data 1).2 ?_).1
    refine ⟨(⟨"an elephant".data, "tk_rf.txt".data, 0⟩,
      normScore (splitWs (lowerList "cat elephant".data))
        (lowerList "an elephant".data)), List.Mem.head _, by decide⟩

/-- The pre-truncation score list of `analyze_query` (the `scores` dict
in Python insertion order): categories with a positive match count. -/
def analyzeScores (q : List Char) : List (String × ℕ) :=
  lawKeywords.filterMap (fun e =>
    if 0 < matchCount e.2 q then some (e.1, matchCount e.2 q) else none)

theorem analyzeQuery_eq (q : List Char) :
    analyzeQuery q =
      ((sortDesc (fun p => p.2) (analyzeScores q)).take 3,
       ((analyzeScores q).map (fun p => p.2)).sum) := rfl

theorem analyzeScores_keys_sublist (q : List Char) :
    ∀ l : List (String × List String),
      List.Sublist ((l.filterMap (fun e =>
        if 0 < matchCount e.2 q then some (e.1, matchCount e.2 q)
        else none)).map Prod.fst) (l.map Prod.fst) := by
  intro l
  induction l with
  | nil => simp
  | cons e l ih =>
    simp only [List.filterMap_cons]
    by_cases h : 0 < matchCount e.2 q
    · rw [if_pos h]
      simp only [List.map_cons]
      exact ih.cons₂ e.1
    · rw [if_neg h]
      simp only [List.map_cons]
      exact ih.cons e.1

theorem analyzeScores_sum (q : List Char) :
    ∀ l : List (String × List String),
      ((l.filterMap (fun e =>
        if 0 < matchCount e.2 q then some (e.1, matchCount e.2 q)
        else none)).map (fun p => p.2)).sum =
      (l.map (fun e => matchCount e.2 q)).sum := by
  intro l
  induction l with
  | nil => rfl
  | cons e l ih =>
    simp only [List.filterMap_cons]
    by_cases h : 0 < matchCount e.2 q
    · rw [if_pos h]
      simp only [List.map_cons, List.sum_cons, ih]
    · rw [if_neg h]
      have hz : matchCount e.2 q = 0 := by omega
      simp only [List.map_cons, List.sum_cons, ih, hz, Nat.zero_add]

/-- C8: the classifier returns only categories with a positive keyword
match count (and the reported count is that category's match count),
sorted non-increasingly by count with ties in the fixed priority order of
the keyword table, truncated to the top 3, together with a total equal to
the sum of the match counts over all categories (those beyond the top 3
included; non-matching categories contribute 0). -/
theorem claim_C8_classifier (q : List Char) :
    (∀ p ∈ (analyzeQuery q).1, 0 < p.2 ∧
      ∃ kws, (p.1, kws) ∈ lawKeywords ∧ p.2 = matchCount kws q) ∧
    (analyzeQuery q).1.Pairwise
      (fun a b => b.2 ≤ a.2 ∧ (a.2 ≤ b.2 → catIdx a.1 < catIdx b.1)) ∧
    (analyzeQuery q).1.length ≤ 3 ∧
    (analyzeQuery q).2 = (lawKeywords.map (fun e => matchCount e.2 q)).sum := by
  rw [analyzeQuery_eq]
  refine ⟨?_, ?_, List.length_take_le _ _, analyzeScores_sum q lawKeywords⟩
  · intro p hp
    have h1 : p ∈ sortDesc (fun p : String × ℕ => p.2) (analyzeScores q) :=
      List.take_subset _ _ hp
    have h2 : p ∈ analyzeScores q := (mem_sortDesc _ p _).mp h1
    rcases List.mem_filterMap.mp h2 with ⟨e, he, hsome⟩
    by_cases hpos : 0 < matchCount e.2 q
    · rw [if_pos hpos] at hsome
      rcases Option.some_inj.mp hsome with rfl
      exact ⟨hpos, e.2, by simpa using he, rfl⟩
    · rw [if_neg hpos] at hsome
      exact absurd hsome (Option.noConfusion)
  · have h0 : (lawKeywords.map Prod.fst).Pairwise
        (fun a b => catIdx a < catIdx b) := by decide
    have h2 : ((analyzeScores q).map Prod.fst).Pairwise
        (fun a b => catIdx a < catIdx b) :=
      h0.sublist (analyzeScores_keys_sublist q lawKeywords)
    rw [List.pairwise_map] at h2
    have h4 := pairwise_sortDesc (fun p : String × ℕ => p.2)
      (fun a b => catIdx a.1 < catIdx b.1) (analyzeScores q) h2
    exact h4.sublist (List.take_sublist _ _)

/-- Witness for C8 at a concrete query containing keywords of two
categories. -/
theorem claim_C8_classifier_witness :
    (0 < 1 ∧ ∃ kws, (("426_fz" : String), kws) ∈ lawKeywords ∧
      1 = matchCount kws "соут и обучение".data) ∧
    (analyzeQuery "соут и обучение".data).1.Pairwise
      (fun a b => b.2 ≤ a.2 ∧ (a.2 ≤ b.2 → catIdx a.1 < catIdx b.1)) ∧
    (analyzeQuery "соут и обучение".data).1.length ≤ 3 ∧
    (analyzeQuery "соут и обучение".data).2 =
      (lawKeywords.map (fun e => matchCount e.2 "соут и обучение".data)).sum := by
  have h := claim_C8_classifier "соут и обучение".data
  exact ⟨h.1 ("426_fz", 1) (by decide), h.2.1, h.2.2.1, h.2.2.2⟩
